import Mathlib

/-!
Verification of the `distinction` crate: a single-pass CVM-style distinct-count
estimator (`find_n_distinct` in `src/lib.rs`).

The embedding below translates the Rust source directly:

* Machine floats (`f64`) used for the sampling probability `p` and the uniform
  draws are modelled as rationals; the draws of the `SmallRng`-backed `Gen` are
  modelled as a stream `ℕ → ℚ` with an explicit cursor `k` in the loop state
  (the Rust generator is stateful; each `gen.gen::<f64>()` call consumes the
  next value of the stream).
* The threshold computation `(12.0 / eps.powf(2.0) * f64::log2((8*m) as f64 /
  delta)).ceil() as usize` uses the transcendental `log2`, so it is modelled
  over `ℝ` with `Real.logb 2`; the saturating `as usize` cast of a
  non-negative ceiling is `Int.toNat`.
* `Vec::swap_remove`, `Vec::retain` and `Iterator::position` are given
  faithful list translations (`swapRemove`, `retainAux`, `List.findIdx?`).
* The early `return 0` inside the loop is modelled by the loop returning
  `none`.
* The state record carries a ghost field `rounds` counting the thinning
  rounds; it instruments the run and is read by no branch of the algorithm.
-/

namespace Distinction

/-- Loop state of `find_n_distinct`: the sample set `chi` (Rust `chi: Vec<&T>`),
the sampling probability `p` (Rust `p: f64`, modelled as `ℚ`), the cursor `k`
into the draw stream (models the mutable state of `gen`), and the ghost
counter `rounds` of thinning rounds performed so far. -/
structure St (α : Type) where
  chi : List α
  p : ℚ
  k : ℕ
  rounds : ℕ
deriving DecidableEq

/-- The pseudo-random generator `Gen`, modelled by the stream of uniform
draws it will produce (`draws n` is the value of the `(n+1)`-st call to
`gen.gen::<f64>()`). -/
structure Gen where
  draws : ℕ → ℚ

/-- Model of `Gen::new`: `seedStream` is the (external) map sending a 64-bit
seed to the draw stream of `SmallRng::seed_from_u64(seed)`, and
`entropyStream` is the draw stream obtained from `SmallRng::from_entropy()`.
With `some seed` the construction is a pure function of the seed; with `none`
it consumes the ambient entropy. -/
def Gen.new (seedStream : ℕ → ℕ → ℚ) (entropyStream : ℕ → ℚ) :
    Option ℕ → Gen
  | some seed => ⟨seedStream seed⟩
  | none => ⟨entropyStream⟩

variable {α : Type} [DecidableEq α]

/-- Model of `Vec::swap_remove(i)`: overwrite position `i` with the last
element and pop the last element. (For `i` out of bounds this total model
returns junk; the Rust method panics there — see `swapRemove?`.) -/
def swapRemove (l : List α) (i : ℕ) : List α :=
  match l.getLast? with
  | none => l
  | some b => (l.set i b).dropLast

/-- Lines 86–89 of the source: if `a_i` occurs in `chi` (at first position
`pos_i`, per `Iterator::position`), `swap_remove` it. -/
def removeStep (a : α) (chi : List α) : List α :=
  match chi.findIdx? (fun x => x == a) with
  | some i => swapRemove chi i
  | none => chi

/-- Lines 86–94 of the source: the unconditional removal of `a_i` followed by
the probabilistic insertion `if gen.gen::<f64>() < p { chi.push(ai) }`. The
draw consumed is `draws s.k`. -/
def insertStep (draws : ℕ → ℚ) (s : St α) (a : α) : List α :=
  if draws s.k < s.p then removeStep a s.chi ++ [a] else removeStep a s.chi

/-- Model of `chi.retain(|_| gen.gen::<f64>() >= 0.5)` starting at draw cursor
`k`: one fresh draw per element, in order, keeping the element iff its draw is
`≥ 1/2`. Returns the surviving list and the advanced cursor. -/
def retainAux (draws : ℕ → ℚ) : List α → ℕ → List α × ℕ
  | [], k => ([], k)
  | a :: t, k =>
    let r := retainAux draws t (k + 1)
    (if draws k ≥ 1 / 2 then a :: r.1 else r.1, r.2)

/-- One iteration of the `for i in 0..m` loop (lines 82–106): removal,
probabilistic insertion, and — when `|chi| = thresh` — thinning, halving of
`p`, and the early `return 0` (modelled as `none`) when the thinning freed no
slot. -/
def processElem (thresh : ℕ) (draws : ℕ → ℚ) (s : St α) (a : α) :
    Option (St α) :=
  let chi1 := insertStep draws s a
  if chi1.length = thresh then
    let r := retainAux draws chi1 (s.k + 1)
    if r.1.length = thresh then none
    else some ⟨r.1, s.p / 2, r.2, s.rounds + 1⟩
  else some ⟨chi1, s.p, s.k + 1, s.rounds⟩

/-- The whole `for` loop: iterate `processElem` over the stream, propagating
the early `return 0` (`none`). -/
def loopCore (thresh : ℕ) (draws : ℕ → ℚ) : List α → St α → Option (St α)
  | [], s => some s
  | a :: rest, s =>
    match processElem thresh draws s a with
    | none => none
    | some s1 => loopCore thresh draws rest s1

/-- Initial state (lines 76–77): `p = 1.0`, `chi = vec![]`, draw cursor `0`. -/
def St.init : St α := ⟨[], 1, 0, 0⟩

/-- Body of `find_n_distinct` after the empty check, with the already-computed
threshold: run the loop and return `(chi.len() as f64 / p) as usize`, i.e. the
truncated non-negative quotient; the early return inside the loop yields 0. -/
def findCore (thresh : ℕ) (draws : ℕ → ℚ) (stream : List α) : ℕ :=
  match loopCore thresh draws stream St.init with
  | none => 0
  | some s => (⌊(s.chi.length : ℚ) / s.p⌋).toNat

/-- Line 78 of the source:
`(12.0 / eps.powf(2.0) * f64::log2((8 * m) as f64 / delta)).ceil() as usize`.
`powf` is real exponentiation (`rpow`), `f64::log2` is `Real.logb 2`, and the
saturating float-to-`usize` cast of the ceiling is `Int.toNat`. -/
noncomputable def thresh (m : ℕ) (eps delta : ℝ) : ℕ :=
  (⌈12 / eps ^ (2 : ℝ) * Real.logb 2 (((8 * m : ℕ) : ℝ) / delta)⌉).toNat

/-- Model of `find_n_distinct(stream, eps, delta, gen)`: return 0 on the empty
stream, otherwise unwrap the generator (`gen.unwrap_or(Gen::new(None))`, where
`Gen::new(None)` draws from the ambient `entropy` stream), compute the
threshold once, and run the pass. -/
noncomputable def find_n_distinct (stream : List α) (eps delta : ℝ)
    (gen : Option Gen) (entropy : ℕ → ℚ) : ℕ :=
  if stream.isEmpty then 0
  else
    findCore (thresh stream.length eps delta) ((gen.getD ⟨entropy⟩).draws)
      stream

/-- Guarded model of `Vec::swap_remove(i)`: `none` models the Rust panic on an
out-of-bounds index. -/
def swapRemove? (l : List α) (i : ℕ) : Option (List α) :=
  if i < l.length then some (swapRemove l i) else none

/-- `removeStep` with the panic of `swap_remove` made explicit. -/
def removeStep? (a : α) (chi : List α) : Option (List α) :=
  match chi.findIdx? (fun x => x == a) with
  | some i => swapRemove? chi i
  | none => some chi

/-- `processElem` with panics explicit: outer `none` models a panic, inner
`none` the early `return 0`. -/
def processElem? (thresh : ℕ) (draws : ℕ → ℚ) (s : St α) (a : α) :
    Option (Option (St α)) :=
  match removeStep? a s.chi with
  | none => none
  | some chi0 =>
    let chi1 := if draws s.k < s.p then chi0 ++ [a] else chi0
    some
      (if chi1.length = thresh then
        let r := retainAux draws chi1 (s.k + 1)
        if r.1.length = thresh then none
        else some ⟨r.1, s.p / 2, r.2, s.rounds + 1⟩
      else some ⟨chi1, s.p, s.k + 1, s.rounds⟩)

/-- The loop with panics explicit. -/
def loopCore? (thresh : ℕ) (draws : ℕ → ℚ) :
    List α → St α → Option (Option (St α))
  | [], s => some (some s)
  | a :: rest, s =>
    match processElem? thresh draws s a with
    | none => none
    | some none => some none
    | some (some s1) => loopCore? thresh draws rest s1

/-- `findCore` with panics explicit. -/
def findCore? (thresh : ℕ) (draws : ℕ → ℚ) (stream : List α) : Option ℕ :=
  match loopCore? thresh draws stream St.init with
  | none => none
  | some none => some 0
  | some (some s) => some ((⌊(s.chi.length : ℚ) / s.p⌋).toNat)

/-- `find_n_distinct` with panics explicit: `none` would model a panic. -/
noncomputable def find_n_distinct? (stream : List α) (eps delta : ℝ)
    (gen : Option Gen) (entropy : ℕ → ℚ) : Option ℕ :=
  if stream.isEmpty then some 0
  else
    findCore? (thresh stream.length eps delta) ((gen.getD ⟨entropy⟩).draws)
      stream

/-- Spec-side thinning (§4 step 3c of the spec): keep exactly the elements of
`l` whose own fresh draw — the `j`-th element consuming draw `k + j` — is
`≥ 0.5`, preserving order. -/
def specThin (draws : ℕ → ℚ) (k : ℕ) (l : List α) : List α :=
  ((l.enumFrom k).filter fun ja => (1 : ℚ) / 2 ≤ draws ja.1).map Prod.snd

/-- Spec-side threshold formula (§3 of the spec):
`ceil((12/ε²)·log2(8m/δ))`, with the same non-negative saturating cast to a
machine integer. -/
noncomputable def threshSpecFormula (m : ℕ) (eps delta : ℝ) : ℕ :=
  (⌈(12 / eps ^ 2) * Real.logb 2 ((8 * (m : ℝ)) / delta)⌉).toNat

/-- Run invariant, indexed by the prefix `pre` of the stream processed so far:
the sample set holds no duplicates, holds only stream elements seen so far,
and the sampling probability is exactly `(1/2) ^ rounds` where `rounds` is the
number of thinning rounds performed so far. -/
def Inv (pre : List α) (s : St α) : Prop :=
  s.chi.Nodup ∧ (∀ x ∈ s.chi, x ∈ pre) ∧ s.p = ((1 : ℚ) / 2) ^ s.rounds

/-- Strengthened invariant for runs in which the threshold is never reached:
`p` is still `1` and the sample set is exactly the set of distinct elements of
the processed prefix. -/
def InvExact (pre : List α) (s : St α) : Prop :=
  s.p = 1 ∧ s.chi.Nodup ∧ ∀ x, x ∈ s.chi ↔ x ∈ pre

/-- Draw stream of the counterexample run: all insertion tests pass and each
of the two thinning rounds keeps exactly the first of the two elements
(draws number 2 and 5 are the retain draws that keep it). All values lie in
`[0, 1)`. -/
def cexDraws : ℕ → ℚ := fun n => if n = 2 ∨ n = 5 then 1 / 2 else 0

/-! ### Auxiliary lemmas about the list operations -/

omit [DecidableEq α] in
theorem swapRemove_perm (l : List α) (i : ℕ) (h : i < l.length) :
    (swapRemove l i).Perm (l.eraseIdx i) := by
  induction l generalizing i with
  | nil => simp at h
  | cons a t ih =>
    cases i with
    | zero =>
      cases t with
      | nil => simp [swapRemove]
      | cons b t2 =>
        have hne : b :: t2 ≠ [] := List.cons_ne_nil _ _
        have hlast : (a :: b :: t2).getLast? =
            some ((b :: t2).getLast hne) := by
          rw [List.getLast?_cons_cons, List.getLast?_eq_getLast _ hne]
        simp only [swapRemove, hlast, List.set_cons_zero, List.eraseIdx_cons_zero,
          List.dropLast_cons_of_ne_nil hne]
        have hdec : (b :: t2).dropLast ++ [(b :: t2).getLast hne] = b :: t2 :=
          List.dropLast_concat_getLast hne
        have h1 : ((b :: t2).getLast hne :: (b :: t2).dropLast).Perm
            ((b :: t2).dropLast ++ [(b :: t2).getLast hne]) :=
          (List.perm_append_singleton _ _).symm
        have h2 : ((b :: t2).dropLast ++ [(b :: t2).getLast hne]).Perm (b :: t2) := by
          rw [hdec]
        exact h1.trans h2
    | succ i =>
      have hi : i < t.length := by simpa using h
      have hne : t ≠ [] := List.ne_nil_of_length_pos (Nat.lt_of_le_of_lt (Nat.zero_le _) hi)
      have hlast : (a :: t).getLast? = some (t.getLast hne) := by
        cases t with
        | nil => exact absurd rfl hne
        | cons b t2 =>
          rw [List.getLast?_cons_cons, List.getLast?_eq_getLast _ hne]
      have hset : t.set i (t.getLast hne) ≠ [] := by
        apply List.ne_nil_of_length_pos
        rw [List.length_set]
        exact Nat.lt_of_le_of_lt (Nat.zero_le _) hi
      have ht : t.getLast? = some (t.getLast hne) := List.getLast?_eq_getLast _ hne
      have hsw : swapRemove t i = (t.set i (t.getLast hne)).dropLast := by
        unfold swapRemove
        rw [ht]
      simp only [swapRemove, hlast, List.set_cons_succ, List.eraseIdx_cons_succ,
        List.dropLast_cons_of_ne_nil hset]
      rw [← hsw]
      exact (ih i hi).cons a

omit [DecidableEq α] in
theorem mem_eraseIdx_of_nodup (l : List α) (i : ℕ) (hi : i < l.length)
    (hnd : l.Nodup) (x : α) :
    x ∈ l.eraseIdx i ↔ x ∈ l ∧ x ≠ l.get ⟨i, hi⟩ := by
  induction l generalizing i with
  | nil => simp at hi
  | cons a t ih =>
    rcases List.nodup_cons.mp hnd with ⟨hat, hndt⟩
    cases i with
    | zero =>
      simp only [List.eraseIdx_cons_zero, List.get, List.mem_cons]
      constructor
      · intro hx
        refine ⟨Or.inr hx, ?_⟩
        rintro rfl
        exact hat hx
      · rintro ⟨hx | hx, hne⟩
        · exact absurd hx hne
        · exact hx
    | succ i =>
      have hi2 : i < t.length := by simpa using hi
      have hget : t.get ⟨i, hi2⟩ ∈ t := List.get_mem t i hi2
      have hane : a ≠ t.get ⟨i, hi2⟩ := fun hxeq => hat (hxeq ▸ hget)
      simp only [List.eraseIdx_cons_succ, List.get, List.mem_cons, ih i hi2 hndt]
      constructor
      · rintro (rfl | ⟨hx, hne⟩)
        · exact ⟨Or.inl rfl, hane⟩
        · exact ⟨Or.inr hx, hne⟩
      · rintro ⟨rfl | hx, hne⟩
        · exact Or.inl rfl
        · exact Or.inr ⟨hx, hne⟩

theorem removeStep_of_not_mem {a : α} {chi : List α} (h : a ∉ chi) :
    removeStep a chi = chi := by
  unfold removeStep
  have : chi.findIdx? (fun x => x == a) = none := by
    rw [List.findIdx?_eq_none_iff]
    intro x hx
    exact beq_eq_false_iff_ne.mpr (fun hxeq => h (hxeq ▸ hx))
  rw [this]

theorem mem_removeStep {chi : List α} (hnd : chi.Nodup) (a x : α) :
    x ∈ removeStep a chi ↔ x ∈ chi ∧ x ≠ a := by
  unfold removeStep
  cases hfind : chi.findIdx? (fun x => x == a) with
  | none =>
    rw [List.findIdx?_eq_none_iff] at hfind
    have hnm : a ∉ chi := fun hmem => by
      have := hfind a hmem
      simp at this
    constructor
    · intro hx
      exact ⟨hx, fun hxeq => hnm (hxeq ▸ hx)⟩
    · exact fun hx => hx.1
  | some i =>
    rcases List.findIdx?_eq_some_iff_getElem.mp hfind with ⟨hlt, hbeq, _⟩
    have hgeteq : chi.get ⟨i, hlt⟩ = a := by
      have := beq_iff_eq.mp hbeq
      simpa using this
    rw [((swapRemove_perm chi i hlt).mem_iff),
      mem_eraseIdx_of_nodup chi i hlt hnd x, hgeteq]

theorem removeStep_nodup {chi : List α} (hnd : chi.Nodup) (a : α) :
    (removeStep a chi).Nodup := by
  unfold removeStep
  cases hfind : chi.findIdx? (fun x => x == a) with
  | none => exact hnd
  | some i =>
    rcases List.findIdx?_eq_some_iff_getElem.mp hfind with ⟨hlt, _, _⟩
    exact (swapRemove_perm chi i hlt).nodup_iff.mpr
      ((List.eraseIdx_sublist chi i).nodup hnd)

/-! ### Lemmas about the thinning step and the loop -/

omit [DecidableEq α] in
theorem retainAux_fst_sublist (draws : ℕ → ℚ) (l : List α) (k : ℕ) :
    (retainAux draws l k).1.Sublist l := by
  induction l generalizing k with
  | nil => simp [retainAux]
  | cons a t ih =>
    simp only [retainAux]
    split
    · exact (ih (k + 1)).cons₂ a
    · exact (ih (k + 1)).cons a

omit [DecidableEq α] in
theorem retainAux_snd (draws : ℕ → ℚ) (l : List α) (k : ℕ) :
    (retainAux draws l k).2 = k + l.length := by
  induction l generalizing k with
  | nil => simp [retainAux]
  | cons a t ih =>
    simp only [retainAux, List.length_cons, ih (k + 1)]
    omega

omit [DecidableEq α] in
theorem retainAux_fst_eq_specThin (draws : ℕ → ℚ) (l : List α) (k : ℕ) :
    (retainAux draws l k).1 = specThin draws k l := by
  induction l generalizing k with
  | nil => simp [retainAux, specThin]
  | cons a t ih =>
    simp only [retainAux, specThin, List.enumFrom_cons, List.filter_cons,
      ge_iff_le, decide_eq_true_eq, ih (k + 1)]
    by_cases hc : (1 : ℚ) / 2 ≤ draws k
    · simp only [one_div] at hc
      simp [hc, specThin]
    · simp only [one_div] at hc
      simp [hc, specThin]

theorem loopCore_append (th : ℕ) (draws : ℕ → ℚ) (l1 l2 : List α) (s : St α) :
    loopCore th draws (l1 ++ l2) s =
      match loopCore th draws l1 s with
      | none => none
      | some s1 => loopCore th draws l2 s1 := by
  induction l1 generalizing s with
  | nil => simp [loopCore]
  | cons a t ih =>
    simp only [List.cons_append, loopCore]
    cases processElem th draws s a with
    | none => rfl
    | some s1 => exact ih s1

/-! ### The run invariant -/

omit [DecidableEq α] in
theorem inv_init : Inv ([] : List α) (St.init : St α) := by
  refine ⟨List.nodup_nil, by simp [St.init], ?_⟩
  simp [St.init]

theorem insertStep_nodup {s : St α} (hnd : s.chi.Nodup) (draws : ℕ → ℚ)
    (a : α) : (insertStep draws s a).Nodup := by
  unfold insertStep
  split
  · rw [List.nodup_append]
    refine ⟨removeStep_nodup hnd a, List.nodup_singleton a, ?_⟩
    intro x hx hxa
    have := ((mem_removeStep hnd a x).mp hx).2
    simp at hxa
    exact this hxa
  · exact removeStep_nodup hnd a

theorem mem_insertStep {s : St α} (hnd : s.chi.Nodup) {draws : ℕ → ℚ}
    {a x : α} (hx : x ∈ insertStep draws s a) : x ∈ s.chi ∨ x = a := by
  unfold insertStep at hx
  split at hx
  · rcases List.mem_append.mp hx with hx | hx
    · exact Or.inl ((mem_removeStep hnd a x).mp hx).1
    · simp at hx
      exact Or.inr hx
  · exact Or.inl ((mem_removeStep hnd a x).mp hx).1

theorem processElem_inv {pre : List α} {s : St α} {th : ℕ} {draws : ℕ → ℚ}
    {a : α} {s1 : St α} (hinv : Inv pre s)
    (h : processElem th draws s a = some s1) : Inv (pre ++ [a]) s1 := by
  obtain ⟨hnd, hsub, hp⟩ := hinv
  have hnd1 : (insertStep draws s a).Nodup := insertStep_nodup hnd draws a
  have hsub1 : ∀ x ∈ insertStep draws s a, x ∈ pre ++ [a] := by
    intro x hx
    rcases mem_insertStep hnd hx with hx | hx
    · exact List.mem_append.mpr (Or.inl (hsub x hx))
    · simp [hx]
  simp only [processElem] at h
  split at h
  · split at h
    · exact absurd h (by simp)
    · rw [Option.some.injEq] at h
      subst h
      refine ⟨(retainAux_fst_sublist draws _ _).nodup hnd1, ?_, ?_⟩
      · intro x hx
        exact hsub1 x ((retainAux_fst_sublist draws _ _).subset hx)
      · show s.p / 2 = ((1 : ℚ) / 2) ^ (s.rounds + 1)
        rw [hp, pow_succ]
        ring
  · rw [Option.some.injEq] at h
    subst h
    exact ⟨hnd1, hsub1, hp⟩

theorem loopCore_inv {th : ℕ} {draws : ℕ → ℚ} (rest : List α) :
    ∀ (pre : List α) (s s2 : St α), Inv pre s →
      loopCore th draws rest s = some s2 → Inv (pre ++ rest) s2 := by
  induction rest with
  | nil =>
    intro pre s s2 hinv h
    simp only [loopCore, Option.some.injEq] at h
    subst h
    simpa using hinv
  | cons a t ih =>
    intro pre s s2 hinv h
    simp only [loopCore] at h
    cases hp : processElem th draws s a with
    | none => rw [hp] at h; exact absurd h (by simp)
    | some s1 =>
      rw [hp] at h
      have h2 := ih (pre ++ [a]) s1 s2 (processElem_inv hinv hp) h
      simpa [List.append_assoc] using h2

theorem processElem_p {th : ℕ} {draws : ℕ → ℚ} {s : St α} {a : α}
    {s1 : St α} (h : processElem th draws s a = some s1) :
    s1.p = s.p ∨ s1.p = s.p / 2 := by
  simp only [processElem] at h
  split at h
  · split at h
    · exact absurd h (by simp)
    · rw [Option.some.injEq] at h
      subst h
      exact Or.inr rfl
  · rw [Option.some.injEq] at h
    subst h
    exact Or.inl rfl

theorem loopCore_p_factor {th : ℕ} {draws : ℕ → ℚ} (rest : List α) :
    ∀ (s s2 : St α), loopCore th draws rest s = some s2 →
      ∃ d : ℕ, s2.p = s.p * ((1 : ℚ) / 2) ^ d := by
  induction rest with
  | nil =>
    intro s s2 h
    simp only [loopCore, Option.some.injEq] at h
    subst h
    exact ⟨0, by ring⟩
  | cons a t ih =>
    intro s s2 h
    simp only [loopCore] at h
    cases hp : processElem th draws s a with
    | none => rw [hp] at h; exact absurd h (by simp)
    | some s1 =>
      rw [hp] at h
      obtain ⟨d, hd⟩ := ih s1 s2 h
      rcases processElem_p hp with h1 | h1
      · exact ⟨d, by rw [hd, h1]⟩
      · exact ⟨d + 1, by rw [hd, h1]; ring⟩

/-! ### The exact-count run (threshold never reached) -/

theorem loopCore_exact {th : ℕ} {draws : ℕ → ℚ} (hlt : ∀ n, draws n < 1)
    (rest : List α) :
    ∀ (pre : List α) (s : St α), (pre ++ rest).dedup.length < th →
      InvExact pre s →
      ∃ s2, loopCore th draws rest s = some s2 ∧ InvExact (pre ++ rest) s2 := by
  induction rest with
  | nil =>
    intro pre s hb hinv
    exact ⟨s, rfl, by simpa using hinv⟩
  | cons a t ih =>
    intro pre s hb hinv
    obtain ⟨hp, hnd, hmem⟩ := hinv
    have hins : insertStep draws s a = removeStep a s.chi ++ [a] := by
      unfold insertStep
      rw [if_pos]
      rw [hp]
      exact hlt s.k
    have hnd1 : (insertStep draws s a).Nodup := insertStep_nodup hnd draws a
    have hmem1 : ∀ x, x ∈ insertStep draws s a ↔ x ∈ pre ++ [a] := by
      intro x
      rw [hins]
      simp only [List.mem_append, List.mem_singleton]
      constructor
      · rintro (hx | rfl)
        · exact Or.inl ((hmem x).mp ((mem_removeStep hnd a x).mp hx).1)
        · exact Or.inr rfl
      · rintro (hx | rfl)
        · by_cases hxa : x = a
          · exact Or.inr hxa
          · exact Or.inl ((mem_removeStep hnd a x).mpr ⟨(hmem x).mpr hx, hxa⟩)
        · exact Or.inr rfl
    have hlen1 : (insertStep draws s a).length = (pre ++ [a]).dedup.length := by
      have h1 : (insertStep draws s a).toFinset = (pre ++ [a]).toFinset := by
        ext x
        simp only [List.mem_toFinset]
        exact hmem1 x
      calc (insertStep draws s a).length
          = (insertStep draws s a).toFinset.card :=
            (List.toFinset_card_of_nodup hnd1).symm
        _ = (pre ++ [a]).toFinset.card := by rw [h1]
        _ = (pre ++ [a]).dedup.length := List.card_toFinset _
    have hmono : (pre ++ [a]).dedup.length ≤ ((pre ++ [a]) ++ t).dedup.length := by
      have hsub : (pre ++ [a]).toFinset ⊆ ((pre ++ [a]) ++ t).toFinset := by
        intro x hx
        simp only [List.mem_toFinset] at hx ⊢
        exact List.mem_append.mpr (Or.inl hx)
      calc (pre ++ [a]).dedup.length
          = (pre ++ [a]).toFinset.card := (List.card_toFinset _).symm
        _ ≤ ((pre ++ [a]) ++ t).toFinset.card := Finset.card_le_card hsub
        _ = ((pre ++ [a]) ++ t).dedup.length := List.card_toFinset _
    have hb2 : ((pre ++ [a]) ++ t).dedup.length < th := by
      rw [List.append_assoc, List.singleton_append]
      exact hb
    have hne : (insertStep draws s a).length ≠ th := by omega
    have hstep : processElem th draws s a =
        some ⟨insertStep draws s a, s.p, s.k + 1, s.rounds⟩ := by
      simp only [processElem]
      rw [if_neg hne]
    have hinv2 : InvExact (pre ++ [a])
        ⟨insertStep draws s a, s.p, s.k + 1, s.rounds⟩ := ⟨hp, hnd1, hmem1⟩
    obtain ⟨s2, hrun, hinv3⟩ := ih (pre ++ [a]) _ hb2 hinv2
    refine ⟨s2, ?_, ?_⟩
    · simp only [loopCore, hstep]
      exact hrun
    · rw [List.append_assoc, List.singleton_append] at hinv3
      exact hinv3

/-! ### The guarded (panic-explicit) model computes the same result -/

theorem removeStep?_eq (a : α) (chi : List α) :
    removeStep? a chi = some (removeStep a chi) := by
  unfold removeStep? removeStep
  cases hfind : chi.findIdx? (fun x => x == a) with
  | none => rfl
  | some i =>
    obtain ⟨hlt, -, -⟩ := List.findIdx?_eq_some_iff_getElem.mp hfind
    simp [swapRemove?, hlt]

theorem processElem?_eq (th : ℕ) (draws : ℕ → ℚ) (s : St α) (a : α) :
    processElem? th draws s a = some (processElem th draws s a) := by
  unfold processElem? processElem insertStep
  rw [removeStep?_eq]

theorem loopCore?_eq (th : ℕ) (draws : ℕ → ℚ) (l : List α) :
    ∀ s : St α, loopCore? th draws l s = some (loopCore th draws l s) := by
  induction l with
  | nil => intro s; rfl
  | cons a t ih =>
    intro s
    simp only [loopCore?, loopCore, processElem?_eq]
    cases processElem th draws s a with
    | none => rfl
    | some s1 => exact ih s1

theorem findCore?_eq (th : ℕ) (draws : ℕ → ℚ) (stream : List α) :
    findCore? th draws stream = some (findCore th draws stream) := by
  unfold findCore? findCore
  rw [loopCore?_eq]
  cases loopCore th draws stream St.init with
  | none => rfl
  | some s => rfl

/-! ### Threshold arithmetic at the concrete witness parameters -/

theorem thresh_three_five_three : thresh 3 5 3 = 2 := by
  unfold thresh
  have h8 : (((8 * 3 : ℕ) : ℝ) / 3) = 8 := by norm_num
  rw [h8]
  have hlog : Real.logb 2 8 = 3 := by
    rw [show (8 : ℝ) = 2 ^ (3 : ℕ) by norm_num, Real.logb_pow,
      Real.logb_self_eq_one (by norm_num)]
    norm_num
  rw [hlog]
  have hpow : (5 : ℝ) ^ (2 : ℝ) = 25 := by
    rw [show (2 : ℝ) = ((2 : ℕ) : ℝ) by norm_num, Real.rpow_natCast]
    norm_num
  rw [hpow]
  have h36 : (12 / 25 * 3 : ℝ) = 36 / 25 := by norm_num
  rw [h36]
  have hceil : ⌈(36 / 25 : ℝ)⌉ = 2 := by
    rw [Int.ceil_eq_iff]
    constructor <;> norm_num
  rw [hceil]
  rfl

/-! ### The claims -/

/-- C1, counterexample: the claim "the value returned by `find_n_distinct` is
a non-negative integer less than or equal to the stream length `m`" is false.
On the stream `[0, 1, 2]` (length 3) with `eps = 5`, `delta = 3` (so
`thresh = 2`) and the draw stream `cexDraws` — all draws in `[0, 1)` — the
function returns 4. -/
theorem estimate_can_exceed_stream_length :
    (∀ n, 0 ≤ cexDraws n ∧ cexDraws n < 1) ∧
    ¬ (find_n_distinct [(0 : ℕ), 1, 2] 5 3 (some ⟨cexDraws⟩) (fun _ => 0) ≤
        ([(0 : ℕ), 1, 2]).length) := by
  constructor
  · intro n
    unfold cexDraws
    split <;> norm_num
  · have h4 : find_n_distinct [(0 : ℕ), 1, 2] 5 3 (some ⟨cexDraws⟩)
        (fun _ => 0) = 4 := by
      unfold find_n_distinct
      rw [if_neg (by simp)]
      rw [show ([(0 : ℕ), 1, 2]).length = 3 from rfl, thresh_three_five_three]
      show findCore 2 cexDraws [0, 1, 2] = 4
      with_unfolding_all decide
    rw [h4]
    norm_num

/-- C1, amended: the returned value is a non-negative integer (it has type
`usize`/`ℕ`), and it is the *sample set*, not the estimate, that can never
represent more distinct values than the stream holds: whenever the pass
completes, `|χ| ≤ (number of distinct elements) ≤ m`. The scaled estimate
`|χ|/p` itself may exceed `m` (see the counterexample). -/
theorem sample_size_le_distinct_count (stream : List α) (eps delta : ℝ)
    (g : Gen) (s : St α)
    (h : loopCore (thresh stream.length eps delta) g.draws stream St.init =
      some s) :
    s.chi.length ≤ stream.dedup.length ∧
      stream.dedup.length ≤ stream.length := by
  obtain ⟨hnd, hsub, -⟩ :
      Inv stream s := by
    simpa using loopCore_inv stream [] St.init s inv_init h
  constructor
  · have hfin : s.chi.toFinset ⊆ stream.toFinset := by
      intro x hx
      simp only [List.mem_toFinset] at hx ⊢
      exact hsub x hx
    calc s.chi.length = s.chi.toFinset.card :=
          (List.toFinset_card_of_nodup hnd).symm
      _ ≤ stream.toFinset.card := Finset.card_le_card hfin
      _ = stream.dedup.length := List.card_toFinset _
  · exact (List.dedup_sublist stream).length_le

/-- Witness for the amended C1 at a concrete completed run. -/
theorem sample_size_le_distinct_count_witness :
    (loopCore (thresh ([(7 : ℕ), 7, 7]).length 5 3) (fun _ => (0 : ℚ))
        [(7 : ℕ), 7, 7] St.init = some ⟨[7], 1, 3, 0⟩) ∧
    ((St.mk [(7 : ℕ)] 1 3 0).chi.length ≤ ([(7 : ℕ), 7, 7]).dedup.length ∧
      ([(7 : ℕ), 7, 7]).dedup.length ≤ ([(7 : ℕ), 7, 7]).length) := by
  have hl : loopCore (thresh ([(7 : ℕ), 7, 7]).length 5 3) (fun _ => (0 : ℚ))
      [(7 : ℕ), 7, 7] St.init = some ⟨[7], 1, 3, 0⟩ := by
    rw [show ([(7 : ℕ), 7, 7]).length = 3 from rfl, thresh_three_five_three]
    with_unfolding_all decide
  exact ⟨hl,
    sample_size_le_distinct_count [(7 : ℕ), 7, 7] 5 3 ⟨fun _ => 0⟩ _ hl⟩

/-- C2: on a non-empty stream whose distinct count is below the computed
threshold, and for a generator whose draws all lie in `[0, 1)`,
`find_n_distinct` returns the exact number of distinct elements: every
insertion test `u < p` passes (as `p` stays `1`), the threshold is never
reached, and the final division by `p = 1` returns `|χ|` exactly. -/
theorem exact_count_below_threshold (stream : List α) (eps delta : ℝ)
    (g : Gen) (entropy : ℕ → ℚ) (hne : stream ≠ [])
    (hdraws : ∀ n, 0 ≤ g.draws n ∧ g.draws n < 1)
    (hth : stream.dedup.length < thresh stream.length eps delta) :
    find_n_distinct stream eps delta (some g) entropy =
      stream.dedup.length := by
  obtain ⟨s2, hrun, hinv⟩ :=
    loopCore_exact (fun n => (hdraws n).2) stream [] St.init
      (by simpa using hth) ⟨rfl, by simp [St.init], by simp [St.init]⟩
  rw [List.nil_append] at hinv
  obtain ⟨hp2, hnd2, hmem2⟩ := hinv
  have hlen : s2.chi.length = stream.dedup.length := by
    have h1 : s2.chi.toFinset = stream.toFinset := by
      ext x
      simp only [List.mem_toFinset]
      exact hmem2 x
    calc s2.chi.length = s2.chi.toFinset.card :=
          (List.toFinset_card_of_nodup hnd2).symm
      _ = stream.toFinset.card := by rw [h1]
      _ = stream.dedup.length := List.card_toFinset _
  cases stream with
  | nil => exact absurd rfl hne
  | cons a t =>
    unfold find_n_distinct
    rw [if_neg (by simp)]
    unfold findCore
    simp only [Option.getD_some]
    rw [hrun]
    show (⌊(s2.chi.length : ℚ) / s2.p⌋).toNat = (a :: t).dedup.length
    rw [hp2, div_one, hlen]
    simp

/-- Witness for C2 at a concrete input: `[7, 7, 7]` has 1 distinct element,
`thresh 3 5 3 = 2`, and the all-zero draw stream lies in `[0, 1)`. -/
theorem exact_count_below_threshold_witness :
    find_n_distinct [(7 : ℕ), 7, 7] 5 3 (some ⟨fun _ => 0⟩) (fun _ => 0) =
      ([(7 : ℕ), 7, 7]).dedup.length := by
  apply exact_count_below_threshold
  · simp
  · intro n
    norm_num
  · rw [show ([(7 : ℕ), 7, 7]).length = 3 from rfl, thresh_three_five_three]
    decide

/-- C3: on the empty stream the function returns 0 for every `eps`, `delta`,
generator argument and entropy source — by the first branch of the function,
before the generator is unwrapped or the threshold computed. -/
theorem empty_stream_returns_zero (eps delta : ℝ) (gen : Option Gen)
    (entropy : ℕ → ℚ) :
    find_n_distinct ([] : List α) eps delta gen entropy = 0 := rfl

/-- C4: with a generator freshly constructed from a fixed seed
(`Gen::new(Some(seed))`), the result is a function of the seed and the inputs
alone: two calls on the same stream and parameters agree, whatever the
ambient entropy on either call. -/
theorem deterministic_under_fixed_seed (seedStream : ℕ → ℕ → ℚ)
    (entropyA entropyB ambientA ambientB : ℕ → ℚ) (seed : ℕ)
    (stream : List α) (eps delta : ℝ) :
    find_n_distinct stream eps delta
        (some (Gen.new seedStream entropyA (some seed))) ambientA =
      find_n_distinct stream eps delta
        (some (Gen.new seedStream entropyB (some seed))) ambientB := rfl

/-- C5: the threshold the algorithm uses is exactly the spec formula
`ceil((12/eps^2) * log2(8*m/delta))`, and the whole pass runs against the one
value computed from the stream length before the loop (the loop state does
not contain `thresh`). -/
theorem thresh_matches_spec_formula (m : ℕ) (eps delta : ℝ) (stream : List α)
    (g : Gen) (entropy : ℕ → ℚ) :
    thresh m eps delta = threshSpecFormula m eps delta ∧
    find_n_distinct stream eps delta (some g) entropy =
      findCore (thresh stream.length eps delta) g.draws stream := by
  constructor
  · unfold thresh threshSpecFormula
    rw [show eps ^ (2 : ℝ) = eps ^ 2 by
      rw [show (2 : ℝ) = ((2 : ℕ) : ℝ) by norm_num, Real.rpow_natCast]]
    push_cast
    rfl
  · unfold find_n_distinct
    cases stream with
    | nil =>
      simp [findCore, loopCore, St.init]
    | cons a t =>
      rw [if_neg (by simp)]
      simp only [Option.getD_some]

/-- C6: whenever the pass completes without the early abort (the loop yields
a final state), the returned value agrees with `round(|χ| / p)`: since `p`
is a power of `1/2`, the quotient is a non-negative integer, so the truncated
division of the code coincides with rounding. -/
theorem returns_round_of_sample_over_p (stream : List α) (eps delta : ℝ)
    (g : Gen) (entropy : ℕ → ℚ) (s : St α)
    (h : loopCore (thresh stream.length eps delta) g.draws stream St.init =
      some s) :
    (find_n_distinct stream eps delta (some g) entropy : ℤ) =
      round ((s.chi.length : ℚ) / s.p) := by
  obtain ⟨-, -, hp⟩ :
      Inv stream s := by
    simpa using loopCore_inv stream [] St.init s inv_init h
  have hq : ((s.chi.length : ℚ) / s.p) =
      ((s.chi.length * 2 ^ s.rounds : ℕ) : ℚ) := by
    rw [hp]
    push_cast
    rw [div_eq_iff (pow_ne_zero _ (by norm_num))]
    rw [mul_assoc, ← mul_pow]
    norm_num
  cases stream with
  | nil =>
    simp only [loopCore, Option.some.injEq] at h
    subst h
    simp [find_n_distinct, St.init]
  | cons a t =>
    unfold find_n_distinct
    rw [if_neg (by simp)]
    unfold findCore
    simp only [Option.getD_some]
    rw [h]
    show (((⌊(s.chi.length : ℚ) / s.p⌋).toNat : ℤ)) =
      round ((s.chi.length : ℚ) / s.p)
    rw [hq, Int.floor_natCast, round_natCast]
    simp

/-- Witness for C6 at a concrete completed run. -/
theorem returns_round_of_sample_over_p_witness :
    (loopCore (thresh ([(7 : ℕ), 7, 7]).length 5 3) (fun _ => (0 : ℚ))
        [(7 : ℕ), 7, 7] St.init = some ⟨[7], 1, 3, 0⟩) ∧
    (find_n_distinct [(7 : ℕ), 7, 7] 5 3 (some ⟨fun _ => 0⟩)
        (fun _ => 0) : ℤ) =
      round (((St.mk [(7 : ℕ)] 1 3 0).chi.length : ℚ) /
        (St.mk [(7 : ℕ)] 1 3 0).p) := by
  have hl : loopCore (thresh ([(7 : ℕ), 7, 7]).length 5 3) (fun _ => (0 : ℚ))
      [(7 : ℕ), 7, 7] St.init = some ⟨[7], 1, 3, 0⟩ := by
    rw [show ([(7 : ℕ), 7, 7]).length = 3 from rfl, thresh_three_five_three]
    with_unfolding_all decide
  exact ⟨hl, returns_round_of_sample_over_p [(7 : ℕ), 7, 7] 5 3 ⟨fun _ => 0⟩
    (fun _ => 0) _ hl⟩

/-- C7: along one run, `p` is at every point of the form `(1/2) ^ rounds`
(where `rounds` counts the thinning rounds performed so far), it never
exceeds its initial value 1, and it never increases: the state after a longer
prefix of the stream has `p` no larger than the state after a shorter one. -/
theorem p_monotone_powers_of_two (th : ℕ) (g : Gen) (pre suf : List α)
    (s1 s2 : St α)
    (h1 : loopCore th g.draws pre St.init = some s1)
    (h2 : loopCore th g.draws (pre ++ suf) St.init = some s2) :
    s1.p = ((1 : ℚ) / 2) ^ s1.rounds ∧ s2.p = ((1 : ℚ) / 2) ^ s2.rounds ∧
      s2.p ≤ s1.p ∧ s1.p ≤ 1 := by
  obtain ⟨-, -, hp1⟩ :
      Inv pre s1 := by
    simpa using loopCore_inv pre [] St.init s1 inv_init h1
  obtain ⟨-, -, hp2⟩ :
      Inv (pre ++ suf) s2 := by
    simpa using loopCore_inv (pre ++ suf) [] St.init s2 inv_init h2
  have h01 : (0 : ℚ) < s1.p := by
    rw [hp1]
    positivity
  have hcont : loopCore th g.draws suf s1 = some s2 := by
    rw [loopCore_append th g.draws pre suf St.init, h1] at h2
    exact h2
  obtain ⟨d, hd⟩ := loopCore_p_factor suf s1 s2 hcont
  refine ⟨hp1, hp2, ?_, ?_⟩
  · calc s2.p = s1.p * ((1 : ℚ) / 2) ^ d := hd
      _ ≤ s1.p * 1 := by
        apply mul_le_mul_of_nonneg_left _ h01.le
        exact pow_le_one₀ (by norm_num) (by norm_num)
      _ = s1.p := mul_one _
  · rw [hp1]
    exact pow_le_one₀ (by norm_num) (by norm_num)

/-- Witness for C7 at a concrete pair of prefixes. -/
theorem p_monotone_powers_of_two_witness :
    (loopCore 2 (Gen.mk fun _ => (0 : ℚ)).draws [(7 : ℕ)] St.init =
        some ⟨[7], 1, 1, 0⟩) ∧
    (loopCore 2 (Gen.mk fun _ => (0 : ℚ)).draws ([(7 : ℕ)] ++ [7, 7])
        St.init = some ⟨[7], 1, 3, 0⟩) ∧
    ((St.mk [(7 : ℕ)] 1 1 0).p =
        ((1 : ℚ) / 2) ^ (St.mk [(7 : ℕ)] 1 1 0).rounds ∧
      (St.mk [(7 : ℕ)] 1 3 0).p =
        ((1 : ℚ) / 2) ^ (St.mk [(7 : ℕ)] 1 3 0).rounds ∧
      (St.mk [(7 : ℕ)] 1 3 0).p ≤ (St.mk [(7 : ℕ)] 1 1 0).p ∧
      (St.mk [(7 : ℕ)] 1 1 0).p ≤ 1) := by
  have ha : loopCore 2 (Gen.mk fun _ => (0 : ℚ)).draws [(7 : ℕ)] St.init =
      some ⟨[7], 1, 1, 0⟩ := by
    with_unfolding_all decide
  have hb : loopCore 2 (Gen.mk fun _ => (0 : ℚ)).draws ([(7 : ℕ)] ++ [7, 7])
      St.init = some ⟨[7], 1, 3, 0⟩ := by
    with_unfolding_all decide
  exact ⟨ha, hb,
    p_monotone_powers_of_two 2 ⟨fun _ => 0⟩ [7] [7, 7] _ _ ha hb⟩

/-- C8: at every point of a run (after any processed prefix for which the
pass has not aborted) the sample set `chi` holds no duplicates: the
unconditional removal before the probabilistic insertion keeps at most one
reference per distinct value. -/
theorem sample_set_nodup (th : ℕ) (g : Gen) (pre : List α) (s : St α)
    (h : loopCore th g.draws pre St.init = some s) : s.chi.Nodup := by
  obtain ⟨hnd, -, -⟩ :
      Inv pre s := by
    simpa using loopCore_inv pre [] St.init s inv_init h
  exact hnd

/-- Witness for C8 at a concrete run that goes through a thinning round. -/
theorem sample_set_nodup_witness :
    (loopCore 2 (Gen.mk fun _ => (0 : ℚ)).draws [(1 : ℕ), 2, 1] St.init =
        some ⟨[1], 1 / 2, 5, 1⟩) ∧
    (St.mk [(1 : ℕ)] (1 / 2) 5 1).chi.Nodup := by
  have hl : loopCore 2 (Gen.mk fun _ => (0 : ℚ)).draws [(1 : ℕ), 2, 1]
      St.init = some ⟨[1], 1 / 2, 5, 1⟩ := by
    with_unfolding_all decide
  exact ⟨hl, sample_set_nodup 2 ⟨fun _ => 0⟩ [1, 2, 1] _ hl⟩

/-- C9: when the sample set reaches size `thresh` right after the insertion
step, the step thins it by keeping exactly the elements whose fresh draw is
`≥ 1/2` (one draw per element, in order) and halves `p`; and if the thinned
set still has size `thresh`, the whole pass returns 0 immediately — the rest
of the stream is never processed. -/
theorem thinning_and_early_abort (th : ℕ) (draws : ℕ → ℚ) (s : St α) (a : α)
    (pre rest : List α)
    (hlen : (insertStep draws s a).length = th) :
    (processElem th draws s a =
      if (specThin draws (s.k + 1) (insertStep draws s a)).length = th then
        none
      else
        some ⟨specThin draws (s.k + 1) (insertStep draws s a), s.p / 2,
          s.k + 1 + (insertStep draws s a).length, s.rounds + 1⟩) ∧
    ((specThin draws (s.k + 1) (insertStep draws s a)).length = th →
      loopCore th draws pre St.init = some s →
      findCore th draws (pre ++ a :: rest) = 0) := by
  have hret1 : (retainAux draws (insertStep draws s a) (s.k + 1)).1 =
      specThin draws (s.k + 1) (insertStep draws s a) :=
    retainAux_fst_eq_specThin draws _ _
  have hret2 : (retainAux draws (insertStep draws s a) (s.k + 1)).2 =
      s.k + 1 + (insertStep draws s a).length := retainAux_snd draws _ _
  have hproc : processElem th draws s a =
      if (specThin draws (s.k + 1) (insertStep draws s a)).length = th then
        none
      else
        some ⟨specThin draws (s.k + 1) (insertStep draws s a), s.p / 2,
          s.k + 1 + (insertStep draws s a).length, s.rounds + 1⟩ := by
    simp only [processElem]
    rw [if_pos hlen, hret1, hret2]
  refine ⟨hproc, fun habort hpre => ?_⟩
  have hnone : processElem th draws s a = none := by
    rw [hproc, if_pos habort]
  have hloop : loopCore th draws (a :: rest) s = none := by
    simp only [loopCore, hnone]
  unfold findCore
  rw [loopCore_append th draws pre (a :: rest) St.init, hpre]
  show (match loopCore th draws (a :: rest) s with
    | none => 0
    | some s2 => (⌊(s2.chi.length : ℚ) / s2.p⌋).toNat) = 0
  rw [hloop]

/-- Witness for C9 at a concrete aborting run: `thresh = 2`, constant draws
`1/2` (every insertion test passes, every retain test keeps). -/
theorem thinning_and_early_abort_witness :
    ((insertStep (fun _ => (1 : ℚ) / 2) (St.mk [(0 : ℕ)] 1 1 0) 1).length =
        2) ∧
    findCore 2 (fun _ => (1 : ℚ) / 2) ([(0 : ℕ)] ++ 1 :: [5]) = 0 := by
  have hlen : (insertStep (fun _ => (1 : ℚ) / 2) (St.mk [(0 : ℕ)] 1 1 0)
      1).length = 2 := by
    with_unfolding_all decide
  have habort : (specThin (fun _ => (1 : ℚ) / 2) ((St.mk [(0 : ℕ)] 1 1 0).k + 1)
      (insertStep (fun _ => (1 : ℚ) / 2) (St.mk [(0 : ℕ)] 1 1 0) 1)).length =
      2 := by
    with_unfolding_all decide
  have hpre : loopCore 2 (fun _ => (1 : ℚ) / 2) [(0 : ℕ)] St.init =
      some ⟨[0], 1, 1, 0⟩ := by
    with_unfolding_all decide
  exact ⟨hlen, (thinning_and_early_abort 2 (fun _ => (1 : ℚ) / 2)
    ⟨[0], 1, 1, 0⟩ 1 [0] [5] hlen).2 habort hpre⟩

/-- C10: the function is total — the panic-explicit model (out-of-bounds
`swap_remove` indices modelled as `none`) always returns `some` of the value
of the total model, for every stream, every `eps` and `delta` (validated
nowhere, including non-positive values), every generator and entropy
source. -/
theorem total_over_domain (stream : List α) (eps delta : ℝ) (gen : Option Gen)
    (entropy : ℕ → ℚ) :
    find_n_distinct? stream eps delta gen entropy =
      some (find_n_distinct stream eps delta gen entropy) := by
  unfold find_n_distinct? find_n_distinct
  split
  · rfl
  · exact findCore?_eq _ _ _

end Distinction
